import Mathlib

/-!
# Verification of `gpt_image.py` (minGPT CIFAR-10 image-GPT driver)

Shallow embedding of the quantization core of `src/gpt_image.py`:

* the k-means codebook builder `kmeans` (lines 69-82),
* the `ImageDataset` sequence adapter (lines 21-42),
* the driver-level construction of datasets, model config and the
  inverse permutation `iperm` (lines 110-118, 149).

Modelling conventions:

* Tensors of floats become `List ℚ` / `List (List ℚ)`.  IEEE NaN can arise
  in the source only as the mean of an empty cluster (`x[a==k].mean(0)` for
  an empty selection); we model a per-cluster mean as `Option (List ℚ)`,
  with `none` standing for the all-NaN row that `torch.any(torch.isnan c, dim=1)`
  detects.  A fully re-seeded (NaN-free) center list is a plain
  `List (List ℚ)`, and an un-reseedable state (more dead clusters than
  supply vectors, which would raise a shape error in torch) is `none` at
  the level of the whole result.
* `torch.randperm(N)` draws are passed in as explicit index-list
  parameters (`r0` for the initialization draw, one list per iteration for
  the re-seeding draws); theorems hypothesize exactly what `randperm`
  guarantees (length `N`, entries `< N`).
* `tensor.argmin` picks the first (lowest-index) minimum; `argmin` below
  mirrors that.
-/

set_option maxRecDepth 4000

namespace GptImage

open scoped List

/-- Squared Euclidean distance `((u - v)**2).sum(-1)` between two vectors. -/
def sqdist (u v : List ℚ) : ℚ :=
  (List.zipWith (fun a b => (a - b) ^ 2) u v).sum

/-- Index of the first minimum of a list, as `tensor.argmin` computes it
(lowest index wins ties); `0` on the empty list. -/
def argmin : List ℚ → Nat
  | [] => 0
  | [_] => 0
  | a :: b :: t =>
    if (b :: t).getD (argmin (b :: t)) 0 < a then argmin (b :: t) + 1 else 0

/-- Index of the codebook row of `c` nearest to `v`:
one entry of `((x[:, None, :] - c[None, :, :])**2).sum(-1).argmin(1)`. -/
def nearest (c : List (List ℚ)) (v : List ℚ) : Nat :=
  argmin (c.map (fun cj => sqdist v cj))

/-- `((x[:, None, :] - c[None, :, :])**2).sum(-1).argmin(1)` — the
nearest-codebook-index lookup, used at line 41 (adapter) and line 74 (kmeans). -/
def assign (x c : List (List ℚ)) : List Nat :=
  x.map (nearest c)

/-- `D = x.size(1)`: the common row length of a rectangular tensor. -/
def dims (x : List (List ℚ)) : Nat :=
  (x.headD []).length

/-- The rows of `x` assigned to cluster `k`: `x[a==k]`. -/
def clusterOf (x : List (List ℚ)) (a : List Nat) (k : Nat) : List (List ℚ) :=
  ((x.zip a).filter (fun p => p.2 == k)).map Prod.fst

/-- `g.mean(0)` for a selection `g` of `D`-dimensional rows: `none` models
the all-NaN row produced when the selection is empty. -/
def meanRows (D : Nat) (g : List (List ℚ)) : Option (List ℚ) :=
  if g.isEmpty then none
  else some ((List.range D).map (fun d => (g.map (fun v => v.getD d 0)).sum / (g.length : ℚ)))

/-- `torch.stack([x[a==k].mean(0) for k in range(ncluster)])` (line 76). -/
def newCenters (x : List (List ℚ)) (a : List Nat) (K : Nat) : List (Option (List ℚ)) :=
  (List.range K).map (fun k => meanRows (dims x) (clusterOf x a k))

/-- `ndead = torch.any(torch.isnan(c), dim=1).sum()` (lines 78-79). -/
def noneCount (cs : List (Option (List ℚ))) : Nat :=
  cs.countP (fun o => o.isNone)

/-- `c[nanix] = x[torch.randperm(N)[:ndead]]` (line 81): dead (NaN) rows,
in index order, are overwritten with the leading vectors of the random
supply; `none` models the torch shape error raised when the supply is
shorter than the number of dead rows. -/
def reseed : List (Option (List ℚ)) → List (List ℚ) → Option (List (List ℚ))
  | [], _ => some []
  | some v :: rest, supply => (reseed rest supply).map (fun t => v :: t)
  | none :: rest, s :: supply => (reseed rest supply).map (fun t => s :: t)
  | none :: _, [] => none

/-- `x[r]` for an index list `r` (a `torch.randperm(N)` draw, possibly
truncated). -/
def sampleRows (x : List (List ℚ)) (r : List Nat) : List (List ℚ) :=
  r.map (fun i => x.getD i [])

/-- One iteration of the loop at lines 72-81: assign, recompute means,
re-seed dead clusters from the random draw `r`. -/
def kmeansStep (x : List (List ℚ)) (K : Nat) (r : List Nat) (c : List (List ℚ)) :
    Option (List (List ℚ)) :=
  reseed (newCenters x (assign x c) K) (sampleRows x r)

/-- The `for i in range(niter)` loop, one random draw per iteration. -/
def kmeansLoop (x : List (List ℚ)) (K : Nat) :
    List (List Nat) → List (List ℚ) → Option (List (List ℚ))
  | [], c => some c
  | r :: rs, c =>
    match kmeansStep x K r c with
    | none => none
    | some c2 => kmeansLoop x K rs c2

/-- `kmeans(x, ncluster, niter)` (lines 69-82); `r0` is the initialization
draw (`c = x[torch.randperm(N)[:ncluster]]`), `rs` the per-iteration
re-seeding draws (`niter = rs.length`). -/
def kmeans (x : List (List ℚ)) (K : Nat) (r0 : List Nat) (rs : List (List Nat)) :
    Option (List (List ℚ)) :=
  kmeansLoop x K rs (sampleRows x (r0.take K))

/-- `s[idx]` — gather the entries of `s` at the positions listed in `idx`. -/
def gather {α : Type} (s : List α) (idx : List Nat) (dflt : α) : List α :=
  idx.map (fun i => s.getD i dflt)

/-- The `ImageDataset` adapter state (lines 26-32): a base dataset of
`(image, label)` pairs — each image already flattened to its 1024 raster-order
RGB pixel rows, as `view(-1, 3)` produces — a codebook, and a pixel
permutation. -/
structure ImageDataset where
  pt_dataset : List (List (List ℚ) × Nat)
  clusters : List (List ℚ)
  perm : List Nat

/-- `ImageDataset.__init__` (lines 26-32): `perm` defaults to
`torch.arange(32*32)` when the argument is omitted (`None`). -/
def ImageDataset.make (pt : List (List (List ℚ) × Nat)) (clusters : List (List ℚ))
    (perm : Option (List Nat)) : ImageDataset :=
  ⟨pt, clusters, perm.getD (List.range (32 * 32))⟩

/-- `self.vocab_size = clusters.size(0)` (line 31). -/
def ImageDataset.vocab_size (d : ImageDataset) : Nat :=
  d.clusters.length

/-- `self.block_size = 32*32 - 1` (line 32). -/
def ImageDataset.block_size (_ : ImageDataset) : Nat :=
  32 * 32 - 1

/-- `__len__` (lines 34-35). -/
def ImageDataset.len (d : ImageDataset) : Nat :=
  d.pt_dataset.length

/-- `__getitem__` (lines 37-42): fetch image `idx`, reorder its pixels by
`perm`, map every pixel to its nearest codebook index, and return
`(a[:-1], a[1:])`. -/
def ImageDataset.getitem (d : ImageDataset) (idx : Nat) : List Nat × List Nat :=
  let x := (d.pt_dataset.getD idx ([], 0)).1
  let xp := gather x d.perm []
  let a := assign xp d.clusters
  (a.dropLast, a.tail)

/-- `iperm = torch.argsort(train_dataset.perm)` (line 149): the index list
that sorts `l` (stable merge sort over positions compared by value). -/
def argsort (l : List Nat) : List Nat :=
  (List.range l.length).mergeSort (fun i j => decide (l.getD i 0 ≤ l.getD j 0))

/-- `train_dataset = ImageDataset(train_data, C)` (line 110): no `perm`
argument is passed. -/
def train_dataset (train_data : List (List (List ℚ) × Nat)) (C : List (List ℚ)) :
    ImageDataset :=
  ImageDataset.make train_data C none

/-- `test_dataset = ImageDataset(test_data, C)` (line 111). -/
def test_dataset (test_data : List (List (List ℚ) × Nat)) (C : List (List ℚ)) :
    ImageDataset :=
  ImageDataset.make test_data C none

/-- The two fields of `GPTConfig` the driver owes the model core
(line 115); the remaining keyword arguments configure the out-of-scope
transformer and are not modelled. -/
structure GPTConfig where
  vocab_size : Nat
  block_size : Nat

/-- `mconf = GPTConfig(train_dataset.vocab_size, train_dataset.block_size, ...)`
(lines 115-117). -/
def mconf (d : ImageDataset) : GPTConfig :=
  ⟨d.vocab_size, d.block_size⟩

/-! ## Basic list helpers -/

theorem getD_eq_get {α : Type} {l : List α} {i : Nat} (h : i < l.length) (d : α) :
    l.getD i d = l[i] := by
  simp [List.getD_eq_getElem?_getD, List.getElem?_eq_getElem h]

/-! ## `argmin`: first-minimum semantics of `tensor.argmin` -/

theorem argmin_lt_length : ∀ (l : List ℚ), l ≠ [] → argmin l < l.length
  | [_], _ => by simp [argmin]
  | a :: b :: t, _ => by
    have ih := argmin_lt_length (b :: t) (by simp)
    rw [argmin]
    split
    · simpa using Nat.succ_lt_succ ih
    · simp

theorem argmin_le : ∀ (l : List ℚ) (j : Nat), j < l.length →
    l.getD (argmin l) 0 ≤ l.getD j 0
  | [], j, hj => by simp at hj
  | [a], j, hj => by
    have : j = 0 := by simpa using Nat.lt_one_iff.mp (by simpa using hj)
    subst this
    simp [argmin]
  | a :: b :: t, j, hj => by
    by_cases h : (b :: t).getD (argmin (b :: t)) 0 < a
    · rw [argmin, if_pos h]
      cases j with
      | zero => simpa using le_of_lt h
      | succ j' =>
        have := argmin_le (b :: t) j' (by simpa using Nat.lt_of_succ_lt_succ hj)
        simpa using this
    · rw [argmin, if_neg h]
      push_neg at h
      cases j with
      | zero => simp
      | succ j' =>
        have := argmin_le (b :: t) j' (by simpa using Nat.lt_of_succ_lt_succ hj)
        simp only [List.getD_cons_succ, List.getD_cons_zero]
        exact le_trans h this

theorem argmin_first : ∀ (l : List ℚ) (j : Nat), j < argmin l →
    l.getD (argmin l) 0 < l.getD j 0
  | [], j, hj => by simp [argmin] at hj
  | [a], j, hj => by simp [argmin] at hj
  | a :: b :: t, j, hj => by
    by_cases h : (b :: t).getD (argmin (b :: t)) 0 < a
    · rw [argmin, if_pos h] at hj ⊢
      cases j with
      | zero => simpa using h
      | succ j' =>
        have := argmin_first (b :: t) j' (Nat.lt_of_succ_lt_succ hj)
        simpa using this
    · rw [argmin, if_neg h] at hj
      exact absurd hj (Nat.not_lt_zero j)

/-! ## Nearest-codebook lookup -/

theorem dists_getD {c : List (List ℚ)} {v : List ℚ} {j : Nat} (hj : j < c.length) :
    (c.map (fun cj => sqdist v cj)).getD j 0 = sqdist v (c.getD j []) := by
  rw [getD_eq_get (by simpa using hj), getD_eq_get hj]
  simp

theorem nearest_spec (c : List (List ℚ)) (v : List ℚ) (hc : c ≠ []) :
    nearest c v < c.length ∧
    (∀ j, j < c.length →
      sqdist v (c.getD (nearest c v) []) ≤ sqdist v (c.getD j [])) ∧
    (∀ j, j < nearest c v →
      sqdist v (c.getD (nearest c v) []) < sqdist v (c.getD j [])) := by
  have hne : c.map (fun cj => sqdist v cj) ≠ [] := by simpa using hc
  have h1 : nearest c v < c.length := by
    have := argmin_lt_length _ hne
    simpa [nearest] using this
  refine ⟨h1, ?_, ?_⟩
  · intro j hj
    have := argmin_le (c.map fun cj => sqdist v cj) j (by simpa using hj)
    rw [dists_getD (by simpa [nearest] using h1), dists_getD hj] at this
    simpa [nearest] using this
  · intro j hj
    have hjc : j < c.length := lt_trans hj h1
    have := argmin_first (c.map fun cj => sqdist v cj) j (by simpa [nearest] using hj)
    rw [dists_getD (by simpa [nearest] using h1), dists_getD hjc] at this
    simpa [nearest] using this

theorem assign_getD_eq_nearest (x c : List (List ℚ)) {i : Nat} (hi : i < x.length) :
    (assign x c).getD i 0 = nearest c (x.getD i []) := by
  rw [getD_eq_get (by simpa [assign] using hi)]
  simp only [assign, List.getElem_map]
  rw [getD_eq_get hi]

/-- C3: every value produced by the nearest-codebook-index lookup (the shared
`assign` used per pixel at line 41 and per sample at line 74) is the argmin
over the codebook entries of squared Euclidean distance, with ties broken by
the lowest index, and always lies in `[0, K)` where `K = c.length`. -/
theorem claim_C3 (x c : List (List ℚ)) (hc : c ≠ []) :
    (∀ v ∈ assign x c, v < c.length) ∧
    ∀ i, i < x.length →
      (assign x c).getD i 0 < c.length ∧
      (∀ j, j < c.length →
        sqdist (x.getD i []) (c.getD ((assign x c).getD i 0) []) ≤
          sqdist (x.getD i []) (c.getD j [])) ∧
      (∀ j, j < (assign x c).getD i 0 →
        sqdist (x.getD i []) (c.getD ((assign x c).getD i 0) []) <
          sqdist (x.getD i []) (c.getD j [])) := by
  constructor
  · intro v hv
    simp only [assign, List.mem_map] at hv
    obtain ⟨xi, _, rfl⟩ := hv
    exact (nearest_spec c xi hc).1
  · intro i hi
    rw [assign_getD_eq_nearest x c hi]
    exact nearest_spec c (x.getD i []) hc

/-- Witness for C3 at a concrete input. -/
theorem claim_C3_witness :
    (assign [[(0 : ℚ), 0, 0], [3, 3, 3]] [[0, 0, 0], [1, 1, 1]]).getD 0 0 < 2 :=
  ((claim_C3 [[0, 0, 0], [3, 3, 3]] [[0, 0, 0], [1, 1, 1]] (by simp)).2 0 (by decide)).1

/-! ## Re-seeding of dead clusters -/

theorem reseed_spec : ∀ (cs : List (Option (List ℚ))) (supply : List (List ℚ)),
    noneCount cs ≤ supply.length →
    ∃ out, reseed cs supply = some out ∧ out.length = cs.length ∧
      (∀ row ∈ out, (some row ∈ cs) ∨ row ∈ supply) ∧
      (∀ i v, cs.getD i none = some v → out.getD i [] = v) ∧
      (∀ i, i < cs.length → cs.getD i none = none → out.getD i [] ∈ supply) := by
  intro cs
  induction cs with
  | nil =>
    intro supply _
    refine ⟨[], rfl, rfl, by simp, ?_, by simp⟩
    intro i v h
    simp [List.getD] at h
  | cons o rest ih =>
    intro supply hcount
    match o with
    | some v =>
      obtain ⟨out, h1, h2, h3, h4, h5⟩ := ih supply (by
        simpa [noneCount, List.countP_cons] using hcount)
      refine ⟨v :: out, by rw [reseed, h1]; rfl, by simp [h2], ?_, ?_, ?_⟩
      · intro row hrow
        rcases List.mem_cons.mp hrow with h | h
        · subst h; exact Or.inl (List.mem_cons_self _ _)
        · rcases h3 row h with h' | h'
          · exact Or.inl (List.mem_cons_of_mem _ h')
          · exact Or.inr h'
      · intro i w hw
        match i with
        | 0 => simp at hw ⊢; exact hw
        | i + 1 => simpa using h4 i w (by simpa using hw)
      · intro i hi hnone
        match i with
        | 0 => simp at hnone
        | i + 1 =>
          exact h5 i (by simpa using Nat.lt_of_succ_lt_succ hi) (by simpa using hnone)
    | none =>
      match supply with
      | [] =>
        exfalso
        have h0 : 0 < noneCount (none :: rest) := by
          simp [noneCount, List.countP_cons]
        have := Nat.lt_of_lt_of_le h0 hcount
        simp at this
      | s :: supply' =>
        obtain ⟨out, h1, h2, h3, h4, h5⟩ := ih supply' (by
          have := hcount
          simp [noneCount, List.countP_cons] at this ⊢
          omega)
        refine ⟨s :: out, by rw [reseed, h1]; rfl, by simp [h2], ?_, ?_, ?_⟩
        · intro row hrow
          rcases List.mem_cons.mp hrow with h | h
          · subst h; exact Or.inr (List.mem_cons_self _ _)
          · rcases h3 row h with h' | h'
            · exact Or.inl (List.mem_cons_of_mem _ h')
            · exact Or.inr (List.mem_cons_of_mem _ h')
        · intro i w hw
          match i with
          | 0 => simp at hw
          | i + 1 => simpa using h4 i w (by simpa using hw)
        · intro i hi hnone
          match i with
          | 0 => simp
          | i + 1 =>
            exact List.mem_cons_of_mem _
              (h5 i (by simpa using Nat.lt_of_succ_lt_succ hi) (by simpa using hnone))

theorem sampleRows_mem {x : List (List ℚ)} {r : List Nat}
    (hrm : ∀ i ∈ r, i < x.length) {row : List ℚ} (hrow : row ∈ sampleRows x r) :
    row ∈ x := by
  simp only [sampleRows, List.mem_map] at hrow
  obtain ⟨i, hi, rfl⟩ := hrow
  rw [getD_eq_get (hrm i hi)]
  exact List.getElem_mem _

theorem meanRows_length {D : Nat} {g : List (List ℚ)} {v : List ℚ}
    (h : meanRows D g = some v) : v.length = D := by
  unfold meanRows at h
  split at h
  · simp at h
  · simp only [Option.some_inj] at h
    subst h
    simp

theorem newCenters_mem_length {x : List (List ℚ)} {a : List Nat} {K : Nat}
    {v : List ℚ} (h : some v ∈ newCenters x a K) : v.length = dims x := by
  simp only [newCenters, List.mem_map] at h
  obtain ⟨k, _, hk⟩ := h
  exact meanRows_length hk

theorem kmeansStep_spec (x c : List (List ℚ)) (K : Nat) (r : List Nat)
    (hr : K ≤ r.length) :
    ∃ out, kmeansStep x K r c = some out ∧ out.length = K ∧
      (∀ row ∈ out, (some row ∈ newCenters x (assign x c) K) ∨ row ∈ sampleRows x r) ∧
      (∀ i v, (newCenters x (assign x c) K).getD i none = some v → out.getD i [] = v) ∧
      (∀ i, i < K → (newCenters x (assign x c) K).getD i none = none →
        out.getD i [] ∈ sampleRows x r) := by
  have hlen : (newCenters x (assign x c) K).length = K := by simp [newCenters]
  have hsup : (sampleRows x r).length = r.length := by simp [sampleRows]
  have hcount : noneCount (newCenters x (assign x c) K) ≤ (sampleRows x r).length := by
    calc noneCount (newCenters x (assign x c) K)
        = (newCenters x (assign x c) K).countP (fun o => o.isNone) := rfl
      _ ≤ (newCenters x (assign x c) K).length := List.countP_le_length _
      _ = K := hlen
      _ ≤ r.length := hr
      _ = (sampleRows x r).length := hsup.symm
  obtain ⟨out, h1, h2, h3, h4, h5⟩ := reseed_spec _ _ hcount
  exact ⟨out, h1, by rw [h2, hlen], h3, h4, fun i hi => h5 i (by rw [hlen]; exact hi)⟩

theorem kmeansLoop_spec (x : List (List ℚ)) (K : Nat) :
    ∀ (rs : List (List Nat)) (c : List (List ℚ)),
    (∀ r ∈ rs, K ≤ r.length ∧ ∀ i ∈ r, i < x.length) →
    c.length = K → (∀ row ∈ c, row ∈ x ∨ row.length = dims x) →
    ∃ cs, kmeansLoop x K rs c = some cs ∧ cs.length = K ∧
      ∀ row ∈ cs, row ∈ x ∨ row.length = dims x := by
  intro rs
  induction rs with
  | nil =>
    intro c _ hc hrow
    exact ⟨c, rfl, hc, hrow⟩
  | cons r rest ih =>
    intro c hrs hc hrow
    obtain ⟨hr, hrm⟩ := hrs r (List.mem_cons_self _ _)
    obtain ⟨out, h1, h2, h3, _, _⟩ := kmeansStep_spec x c K r hr
    have hout : ∀ row ∈ out, row ∈ x ∨ row.length = dims x := by
      intro row hrowo
      rcases h3 row hrowo with h | h
      · exact Or.inr (newCenters_mem_length h)
      · exact Or.inl (sampleRows_mem hrm h)
    obtain ⟨cs, hl1, hl2, hl3⟩ :=
      ih out (fun r' hr' => hrs r' (List.mem_cons_of_mem _ hr')) h2 hout
    refine ⟨cs, ?_, hl2, hl3⟩
    rw [kmeansLoop, h1]
    exact hl1

/-- C1: for every input set of `N` `D`-dimensional vectors with `N ≥ K`
(over ℚ, so NaN-free; an undefined/NaN mean row is modelled by `none`),
`kmeans` returns (`some`, i.e. with every row defined — no NaN) exactly
`K` vectors, each `D`-dimensional.  `r0` and the elements of `rs` are the
`torch.randperm(N)` draws, hypothesized to have the length and range that
`randperm` guarantees. -/
theorem claim_C1 (x : List (List ℚ)) (K D : Nat) (r0 : List Nat) (rs : List (List Nat))
    (hx : ∀ row ∈ x, row.length = D)
    (hK : K ≤ x.length) (hr0 : K ≤ r0.length) (hr0m : ∀ i ∈ r0, i < x.length)
    (hrs : ∀ r ∈ rs, r.length = x.length ∧ ∀ i ∈ r, i < x.length) :
    ∃ cs, kmeans x K r0 rs = some cs ∧ cs.length = K ∧
      ∀ row ∈ cs, row.length = D := by
  have hinit_len : (sampleRows x (r0.take K)).length = K := by
    simp only [sampleRows, List.length_map, List.length_take]
    omega
  have hinit_mem : ∀ row ∈ sampleRows x (r0.take K), row ∈ x ∨ row.length = dims x := by
    intro row hrow
    exact Or.inl (sampleRows_mem (fun i hi => hr0m i (List.mem_of_mem_take hi)) hrow)
  have hrs' : ∀ r ∈ rs, K ≤ r.length ∧ ∀ i ∈ r, i < x.length := by
    intro r hr
    obtain ⟨h1, h2⟩ := hrs r hr
    exact ⟨h1 ▸ hK, h2⟩
  obtain ⟨cs, h1, h2, h3⟩ := kmeansLoop_spec x K rs _ hrs' hinit_len hinit_mem
  refine ⟨cs, h1, h2, ?_⟩
  intro row hrow
  rcases h3 row hrow with h | h
  · exact hx row h
  · match x, hK with
    | [], hK =>
      have : K = 0 := Nat.le_zero.mp hK
      subst this
      have : cs = [] := List.length_eq_zero.mp h2
      subst this
      simp at hrow
    | y :: t, _ =>
      rw [h]
      exact hx y (List.mem_cons_self _ _)

/-- Witness for C1 at a concrete input: `N = 2`, `D = 1`, `K = 1`, one
iteration. -/
theorem claim_C1_witness :
    ∃ cs, kmeans [[(0 : ℚ)], [4]] 1 [0, 1] [[1, 0]] = some cs ∧ cs.length = 1 ∧
      ∀ row ∈ cs, row.length = 1 :=
  claim_C1 [[(0 : ℚ)], [4]] 1 1 [0, 1] [[1, 0]] (by decide)
    (by decide) (by decide) (by decide) (by decide)

/-- C4: in every clustering iteration, each center whose recomputed mean is
undefined (NaN, modelled `none`) is replaced with a freshly sampled input
vector within that same pass, live centers keep their recomputed means, and
the next iteration of the loop proceeds from the re-seeded centers — so a
NaN center never reaches a subsequent assignment step. -/
theorem claim_C4 (x c : List (List ℚ)) (K : Nat) (r : List Nat) (rest : List (List Nat))
    (hr : K ≤ r.length) (hrm : ∀ i ∈ r, i < x.length) :
    ∃ out, kmeansStep x K r c = some out ∧
      (∀ i, i < K → (newCenters x (assign x c) K).getD i none = none →
        out.getD i [] ∈ x) ∧
      (∀ i v, (newCenters x (assign x c) K).getD i none = some v →
        out.getD i [] = v) ∧
      kmeansLoop x K (r :: rest) c = kmeansLoop x K rest out := by
  obtain ⟨out, h1, _, _, h4, h5⟩ := kmeansStep_spec x c K r hr
  refine ⟨out, h1, ?_, h4, ?_⟩
  · intro i hi hdead
    exact sampleRows_mem hrm (h5 i hi hdead)
  · rw [kmeansLoop, h1]

/-- Witness for C4 at a concrete input (one center, dead after the
assignment to the other center is impossible here; the equations are still
exercised). -/
theorem claim_C4_witness :
    ∃ out, kmeansStep [[(0 : ℚ)], [4]] 1 [1, 0] [[5]] = some out ∧
      (∀ i, i < 1 →
        (newCenters [[(0 : ℚ)], [4]] (assign [[(0 : ℚ)], [4]] [[5]]) 1).getD i none =
          none → out.getD i [] ∈ [[(0 : ℚ)], [4]]) ∧
      (∀ i v,
        (newCenters [[(0 : ℚ)], [4]] (assign [[(0 : ℚ)], [4]] [[5]]) 1).getD i none =
          some v → out.getD i [] = v) ∧
      kmeansLoop [[(0 : ℚ)], [4]] 1 [[1, 0]] [[5]] =
        kmeansLoop [[(0 : ℚ)], [4]] 1 [] out :=
  claim_C4 [[(0 : ℚ)], [4]] [[5]] 1 [1, 0] [] (by decide) (by decide)

/-- C10: in every kmeans iteration the number of dead centers is at most
`K`; under `N ≥ K` (`randperm` supplies `N` replacement candidates) the
re-seed step therefore never runs out of replacements and produces a
well-formed center list of length `K`. -/
theorem claim_C10 (x c : List (List ℚ)) (K : Nat) (a : List Nat) (r : List Nat)
    (hr : K ≤ r.length) :
    noneCount (newCenters x a K) ≤ K ∧
    noneCount (newCenters x (assign x c) K) ≤ (sampleRows x r).length ∧
    ∃ out, kmeansStep x K r c = some out ∧ out.length = K := by
  have hbound : ∀ a' : List Nat, noneCount (newCenters x a' K) ≤ K := by
    intro a'
    calc noneCount (newCenters x a' K)
        = (newCenters x a' K).countP (fun o => o.isNone) := rfl
      _ ≤ (newCenters x a' K).length := List.countP_le_length _
      _ = K := by simp [newCenters]
  refine ⟨hbound a, ?_, ?_⟩
  · calc noneCount (newCenters x (assign x c) K) ≤ K := hbound _
      _ ≤ r.length := hr
      _ = (sampleRows x r).length := by simp [sampleRows]
  · obtain ⟨out, h1, h2, _, _, _⟩ := kmeansStep_spec x c K r hr
    exact ⟨out, h1, h2⟩

/-- Witness for C10 at a concrete input. -/
theorem claim_C10_witness :
    noneCount (newCenters [[(0 : ℚ)], [4]] [0, 0] 1) ≤ 1 ∧
    noneCount
        (newCenters [[(0 : ℚ)], [4]] (assign [[(0 : ℚ)], [4]] [[5]]) 1) ≤
      (sampleRows [[(0 : ℚ)], [4]] [1, 0]).length ∧
    ∃ out, kmeansStep [[(0 : ℚ)], [4]] 1 [1, 0] [[5]] = some out ∧ out.length = 1 :=
  claim_C10 [[(0 : ℚ)], [4]] [[5]] 1 [0, 0] [1, 0] (by decide)

/-! ## The sequence adapter -/

theorem dropLast_append_tail_getLastD {α : Type} :
    ∀ (l : List α) (d : α), 2 ≤ l.length → l.dropLast ++ [l.tail.getLastD d] = l
  | [], _, h => by simp at h
  | [_], _, h => by simp at h
  | a :: b :: t, d, _ => by
    have hne : (b :: t) ≠ [] := by simp
    have h2 : (b :: t).getLastD d = (a :: b :: t).getLast (by simp) := by
      rw [List.getLastD_eq_getLast?, List.getLast?_eq_getLast _ hne]
      simp [List.getLast_cons]
    calc (a :: b :: t).dropLast ++ [(a :: b :: t).tail.getLastD d]
        = (a :: b :: t).dropLast ++ [(a :: b :: t).getLast (by simp)] := by
          rw [List.tail_cons, h2]
      _ = a :: b :: t := List.dropLast_append_getLast _

/-- C2: for every valid index into the base dataset, `getitem` returns two
sequences of length `32*32 - 1 = 1023`, namely `seq[:-1]` and `seq[1:]` of
the full 1024-long permuted index sequence `seq`; appending the target's
last element to the input reconstructs `seq` exactly. -/
theorem claim_C2 (d : ImageDataset) (idx : Nat)
    (hidx : idx < d.len) (hperm : d.perm.length = 32 * 32) :
    (assign (gather (d.pt_dataset.getD idx ([], 0)).1 d.perm []) d.clusters).length
        = 32 * 32 ∧
    (d.getitem idx).1.length = 32 * 32 - 1 ∧
    (d.getitem idx).2.length = 32 * 32 - 1 ∧
    (d.getitem idx).1 =
      (assign (gather (d.pt_dataset.getD idx ([], 0)).1 d.perm []) d.clusters).dropLast ∧
    (d.getitem idx).2 =
      (assign (gather (d.pt_dataset.getD idx ([], 0)).1 d.perm []) d.clusters).tail ∧
    (d.getitem idx).1 ++ [(d.getitem idx).2.getLastD 0] =
      assign (gather (d.pt_dataset.getD idx ([], 0)).1 d.perm []) d.clusters := by
  have hseq :
      (assign (gather (d.pt_dataset.getD idx ([], 0)).1 d.perm []) d.clusters).length
        = 32 * 32 := by
    simp [assign, gather, hperm]
  refine ⟨hseq, ?_, ?_, rfl, rfl, ?_⟩
  · show (assign (gather (d.pt_dataset.getD idx ([], 0)).1 d.perm []) d.clusters).dropLast.length = 32 * 32 - 1
    rw [List.length_dropLast, hseq]
  · show (assign (gather (d.pt_dataset.getD idx ([], 0)).1 d.perm []) d.clusters).tail.length = 32 * 32 - 1
    rw [List.length_tail, hseq]
  · exact dropLast_append_tail_getLastD _ 0 (by rw [hseq]; omega)

/-- Witness for C2 at a concrete adapter (one empty image, empty codebook,
default permutation). -/
theorem claim_C2_witness :
    ((ImageDataset.make [([], 0)] [] none).getitem 0).1.length = 32 * 32 - 1 :=
  (claim_C2 (ImageDataset.make [([], 0)] [] none) 0 (by simp [ImageDataset.len, ImageDataset.make])
    (by simp [ImageDataset.make])).2.1

/-- C6 counterexample: the default permutation is not a fresh random draw
per instantiation — it is `torch.arange(32*32)`, the raster-order identity,
identical across any two instances constructed without a `perm` argument. -/
theorem claim_C6_counterexample :
    (ImageDataset.make [] [] none).perm = (ImageDataset.make [([[0]], 0)] [[1]] none).perm ∧
    (ImageDataset.make [] [] none).perm = List.range (32 * 32) :=
  ⟨rfl, rfl⟩

/-- C6 (amended): an adapter constructed without an explicit permutation
uses the deterministic identity permutation `arange(32*32)` — the raster
order itself, shared by every instance — not a fresh random permutation. -/
theorem claim_C6_amended (pt1 pt2 : List (List (List ℚ) × Nat)) (c1 c2 : List (List ℚ)) :
    (ImageDataset.make pt1 c1 none).perm = List.range (32 * 32) ∧
    (ImageDataset.make pt1 c1 none).perm = (ImageDataset.make pt2 c2 none).perm :=
  ⟨rfl, rfl⟩

/-- C7: when the permutation argument is omitted, the generated default is
the identity permutation `arange(32*32)` over the 1024 pixel positions, and
every dataset instance constructed this way (train and test) uses that same
fixed ordering. -/
theorem claim_C7 (pt : List (List (List ℚ) × Nat)) (C : List (List ℚ)) :
    (train_dataset pt C).perm = List.range (32 * 32) ∧
    ∀ (pt2 : List (List (List ℚ) × Nat)) (C2 : List (List ℚ)),
      (train_dataset pt C).perm = (test_dataset pt2 C2).perm :=
  ⟨rfl, fun _ _ => rfl⟩

/-- C8: the adapter exposes `vocab_size = K` (the codebook size) and
`block_size = 32*32 - 1 = 1023` (the length of each returned sequence), and
these are exactly the values the driver passes to `GPTConfig`. -/
theorem claim_C8 (pt : List (List (List ℚ) × Nat)) (C : List (List ℚ)) (idx : Nat) :
    (mconf (train_dataset pt C)).vocab_size = C.length ∧
    (mconf (train_dataset pt C)).block_size = 32 * 32 - 1 ∧
    ((train_dataset pt C).getitem idx).1.length = 32 * 32 - 1 ∧
    ((train_dataset pt C).getitem idx).2.length = 32 * 32 - 1 ∧
    (mconf (train_dataset pt C)).vocab_size = (train_dataset pt C).vocab_size ∧
    (mconf (train_dataset pt C)).block_size = (train_dataset pt C).block_size := by
  refine ⟨rfl, rfl, ?_, ?_, rfl, rfl⟩
  · show (assign (gather _ (train_dataset pt C).perm []) C).dropLast.length = 32 * 32 - 1
    simp [assign, gather, train_dataset, ImageDataset.make]
  · show (assign (gather _ (train_dataset pt C).perm []) C).tail.length = 32 * 32 - 1
    simp [assign, gather, train_dataset, ImageDataset.make]

/-- C9: `getitem` is deterministic — it is a function of the base dataset,
codebook and permutation alone, so two adapters agreeing on those three
components return identical `(input, target)` pairs at every index. -/
theorem claim_C9 (d1 d2 : ImageDataset) (idx : Nat)
    (h1 : d1.pt_dataset = d2.pt_dataset) (h2 : d1.clusters = d2.clusters)
    (h3 : d1.perm = d2.perm) :
    d1.getitem idx = d2.getitem idx := by
  simp only [ImageDataset.getitem, h1, h2, h3]

/-- Witness for C9 at concrete adapters. -/
theorem claim_C9_witness :
    (ImageDataset.make [([[0]], 0)] [[1]] none).getitem 0 =
      { pt_dataset := [([[0]], 0)], clusters := [[1]],
        perm := List.range (32 * 32) : ImageDataset }.getitem 0 :=
  claim_C9 _ _ 0 rfl rfl rfl

/-! ## `argsort` inverts a permutation -/

theorem map_getD_range {α : Type} (l : List α) (d : α) :
    (List.range l.length).map (fun i => l.getD i d) = l := by
  apply List.ext_getElem
  · simp
  · intro i h1 h2
    simp only [List.getElem_map, List.getElem_range]
    exact getD_eq_get h2 d

theorem sorted_perm_range_eq {m : List Nat} {n : Nat}
    (hp : m ~ List.range n) (hs : m.Pairwise (· ≤ ·)) : m = List.range n :=
  List.eq_of_perm_of_sorted hp hs (List.sorted_le_range n)

theorem argsort_perm (l : List Nat) : argsort l ~ List.range l.length :=
  List.mergeSort_perm _ _

theorem argsort_sorted (l : List Nat) :
    (argsort l).Pairwise (fun i j => l.getD i 0 ≤ l.getD j 0) := by
  have h := @List.sorted_mergeSort Nat (fun i j => decide (l.getD i 0 ≤ l.getD j 0))
    (fun a b c h1 h2 => by
      simp only [decide_eq_true_eq] at h1 h2 ⊢
      exact le_trans h1 h2)
    (fun a b => by
      simp only [Bool.or_eq_true, decide_eq_true_eq]
      exact Nat.le_total _ _)
    (List.range l.length)
  exact h.imp (fun hab => by simpa using hab)

theorem argsort_inverse (l : List Nat) (n : Nat) (hl : l ~ List.range n) :
    gather l (argsort l) 0 = List.range n := by
  have hperm : gather l (argsort l) 0 ~ l := by
    have h2 := (argsort_perm l).map (fun i => l.getD i 0)
    rw [map_getD_range] at h2
    exact h2
  have hsorted : (gather l (argsort l) 0).Pairwise (· ≤ ·) :=
    (argsort_sorted l).map _ (fun a b hab => hab)
  exact sorted_perm_range_eq (hperm.trans hl) hsorted

theorem gather_getD {α : Type} (s : List α) (idx : List Nat) (d : α) {j : Nat}
    (hj : j < idx.length) :
    (gather s idx d).getD j d = s.getD (idx.getD j 0) d := by
  rw [getD_eq_get (by simpa [gather] using hj)]
  simp only [gather, List.getElem_map]
  rw [getD_eq_get hj]

theorem argsort_getD_inverse (l : List Nat) (n : Nat) (hl : l ~ List.range n)
    {i : Nat} (hi : i < n) :
    l.getD ((argsort l).getD i 0) 0 = i := by
  have hlen : l.length = n := by simpa using hl.length_eq
  have hslen : (argsort l).length = n := by
    simpa [hlen] using (argsort_perm l).length_eq
  have h1 : i < (argsort l).length := by rw [hslen]; exact hi
  have h2 := gather_getD l (argsort l) 0 h1
  rw [← h2, argsort_inverse l n hl, getD_eq_get (by simpa using hi)]
  simp

theorem argsort_getD_lt (l : List Nat) (n : Nat) (hl : l ~ List.range n)
    {i : Nat} (hi : i < n) : (argsort l).getD i 0 < l.length := by
  have hlen : l.length = n := by simpa using hl.length_eq
  have hslen : (argsort l).length = n := by
    simpa [hlen] using (argsort_perm l).length_eq
  have h1 : i < (argsort l).length := by rw [hslen]; exact hi
  have hmem : (argsort l).getD i 0 ∈ argsort l := by
    rw [getD_eq_get h1]
    exact List.getElem_mem _
  have := (argsort_perm l).mem_iff.mp hmem
  rw [hlen]
  exact List.mem_range.mp (by rwa [hlen] at this)

/-- C5: the permutation handed to the adapter is a bijection on the 1024
pixel positions; `iperm = argsort(perm)` (line 149) is again a permutation
of the 1024 positions (so sorting it recovers the identity ordering
`arange(1024)`), and for every length-1024 sequence `s`, indexing `s` by
`perm` and the result by `iperm` (line 155) recovers `s` exactly. -/
theorem claim_C5 {α : Type} (perm : List Nat) (s : List α) (dflt : α)
    (hp : perm ~ List.range (32 * 32)) (hs : s.length = 32 * 32) :
    argsort perm ~ List.range (32 * 32) ∧
    (argsort perm).mergeSort (fun i j => decide (i ≤ j)) = List.range (32 * 32) ∧
    gather (gather s perm dflt) (argsort perm) dflt = s := by
  have hlen : perm.length = 32 * 32 := by simpa using hp.length_eq
  have hap : argsort perm ~ List.range (32 * 32) := by
    have := argsort_perm perm
    rwa [hlen] at this
  refine ⟨hap, ?_, ?_⟩
  · apply sorted_perm_range_eq ((List.mergeSort_perm _ _).trans hap)
    have h := @List.sorted_mergeSort Nat (fun i j => decide (i ≤ j))
      (fun a b c h1 h2 => by
        simp only [decide_eq_true_eq] at h1 h2 ⊢
        exact le_trans h1 h2)
      (fun a b => by
        simp only [Bool.or_eq_true, decide_eq_true_eq]
        exact Nat.le_total _ _)
      (argsort perm)
    exact h.imp (fun hab => by simpa using hab)
  · have hslen : (argsort perm).length = 32 * 32 := by
      simpa [hlen] using (argsort_perm perm).length_eq
    apply List.ext_getElem
    · simp [gather, hslen, hs]
    · intro i hi1 hi2
      have hi : i < 32 * 32 := by
        simpa [gather, hslen] using hi1
      have hj : (argsort perm).getD i 0 < perm.length := argsort_getD_lt perm _ hp hi
      rw [← getD_eq_get (by simpa [gather] using hi1) dflt,
        gather_getD _ _ _ (by rw [hslen]; exact hi),
        gather_getD _ _ _ hj,
        argsort_getD_inverse perm _ hp hi,
        getD_eq_get hi2]

/-- Witness for C5 at a concrete permutation (the driver's default
`arange(32*32)`). -/
theorem claim_C5_witness :
    gather (gather (List.range (32 * 32)) (List.range (32 * 32)) 0)
      (argsort (List.range (32 * 32))) 0 = List.range (32 * 32) :=
  (claim_C5 (List.range (32 * 32)) (List.range (32 * 32)) 0 (List.Perm.refl _)
    (by simp)).2.2

end GptImage
